import Mathlib

/-!
Verification of the SuperScaler plan-generation and graph subsystems.

The repository's `plan_gen/plan/plan_generator.py` façade and its test are
embedded from source; the components it orchestrates (`ResourcePool`,
`PlanPool`, `PlanManager`, `GPURoundRobinMapper`, the two all-reduce plan
algorithms) are not part of the source tree and are modelled from the spec.
The scaler_graph rewriting (`parallelism.py`, `parallelizer.py`,
`graph_util.py`) and the TensorFlow wrapper (`tensorflow.py`) are embedded
directly from source.
-/

namespace SuperScaler

/-! ## plan_gen data model -/

/-- Device kind, spec data model: `kind: enum{CPU,GPU}`. -/
inductive DevKind where
  | cpu
  | gpu
deriving DecidableEq

/-- Modelled from the spec (resources/resource_pool.py is missing):
a compute device `{name, kind, performance}`. -/
structure Device where
  name : String
  kind : DevKind
  performance : String
deriving DecidableEq

/-- Modelled from the spec: a directed link between two devices, with a
`link_index` distinguishing parallel links. -/
structure Link where
  srcName : String
  dstName : String
  linkIndex : Nat
  bandwidth : String
deriving DecidableEq

/-- Modelled from the spec (resources/resource_pool.py is missing): the
aggregate of devices and links, loaded once and read-only afterwards.
Declaration order of `devices` and `links` is preserved. -/
structure ResourcePool where
  devices : List Device
  links : List Link
deriving DecidableEq

def DevKind.str : DevKind → String
  | .cpu => "CPU"
  | .gpu => "GPU"

/-- Modelled from the spec: `get_links_as_list` returns the links in
declaration order. -/
def ResourcePool.get_links_as_list (rp : ResourcePool) : List Link :=
  rp.links

/-- Modelled from the spec and the repository's own test
(tests/plan_gen/test_plan_generator.py): one record per device, in
declaration order; each record carries the keys "name", "type" and
"performance" (the test asserts the key "type" for the device kind). -/
def ResourcePool.get_computational_hardware_as_list (rp : ResourcePool) :
    List (List (String × String)) :=
  rp.devices.map (fun d =>
    [("name", d.name), ("type", d.kind.str), ("performance", d.performance)])

/-- A node-list entry (spec data model: Rank): rank ordinal, requested
device label, and the rank's tensor descriptor. -/
structure NodeEntry where
  rank : Nat
  deviceLabel : String
  tensorName : String
  tensorSize : Nat
deriving DecidableEq, Inhabited

/-- Communication step operation kinds used by the modelled algorithms. -/
inductive StepOp where
  | send
  | recv
deriving DecidableEq

/-- Modelled from the spec: the atomic unit of a plan
`{step_id, device, operation, peer, payload, chunk_range}`. -/
structure CommStep where
  stepId : Nat
  deviceName : String
  op : StepOp
  peerName : String
  tensorName : String
  chunkOffset : Nat
  chunkLen : Nat
deriving DecidableEq

/-- Modelled from the spec: a plan is an algorithm name plus the ordered
step sequence (steps of one device are recovered by filtering). -/
structure Plan where
  algorithmName : String
  steps : List CommStep
deriving DecidableEq

deriving instance DecidableEq for Except

/-- RouteTable: `(src, dst, link_index) ↦ ordered step-id list`. -/
abbrev RouteTable := List ((String × String × Nat) × List Nat)

/-- Steps of `p` executed on device `d`, in plan order. -/
def Plan.stepsOfDevice (p : Plan) (d : String) : List CommStep :=
  p.steps.filter (fun s => decide (s.deviceName = d))

/-- The distinct step ids of a plan, in first-occurrence order. -/
def Plan.stepIds (p : Plan) : List Nat :=
  (p.steps.map (fun s => s.stepId)).dedup

/-! ## Modelled plan algorithms -/

/-- Modelled from the spec: the Ring algorithm (ring_allreduce_plan.py is
missing).  The N placed devices form a directed ring in placement order;
the plan is a sequence of `2(N-1)` paired exchanges, each pairing a SEND
on the sending device with a RECV on its ring successor under one shared,
globally increasing step id (the spec's step-pairing contract).  Round `r`
is sent by device `r mod N` and carries chunk `r mod N` of the tensor,
the last chunk absorbing the division remainder.  For N = 2 this yields
the spec's concrete scenario: two steps per device, each device one SEND
and one RECV with its sole peer. -/
def ring_steps (devs : List String) (tname : String) (tsize : Nat) :
    List CommStep :=
  let n := devs.length
  ((List.range (2 * (n - 1))).map (fun r =>
    let i := r % n
    let j := (r + 1) % n
    let c := r % n
    let base := tsize / n
    let off := base * c
    let len := if c = n - 1 then tsize - base * (n - 1) else base
    [⟨r, devs.getD i "", StepOp.send, devs.getD j "", tname, off, len⟩,
     ⟨r, devs.getD j "", StepOp.recv, devs.getD i "", tname, off, len⟩])).flatten

/-- Modelled from the spec: the Reduce-Broadcast algorithm
(reduce_broadcast_allreduce_plan.py is missing).  Rank 0 is the
aggregator (the spec's fixed tie-break); every other device first sends
its full tensor to the aggregator, then the aggregator sends the reduced
tensor back, each transfer a SEND/RECV pair sharing one step id. -/
def reduce_broadcast_steps (devs : List String) (tname : String)
    (tsize : Nat) : List CommStep :=
  match devs with
  | [] => []
  | agg :: rest =>
    let m := rest.length
    (((List.range m).map (fun i =>
      let d := rest.getD i ""
      [⟨i, d, StepOp.send, agg, tname, 0, tsize⟩,
       ⟨i, agg, StepOp.recv, d, tname, 0, tsize⟩])).flatten) ++
    (((List.range m).map (fun i =>
      let d := rest.getD i ""
      [⟨m + i, agg, StepOp.send, d, tname, 0, tsize⟩,
       ⟨m + i, d, StepOp.recv, agg, tname, 0, tsize⟩])).flatten)

/-- Modelled from the spec: the route table recorded while generating a
plan, keyed `(src device, dst device, link_index)`, each key mapped to
the ordered step ids of the SEND steps traversing that link. -/
def route_of_steps (steps : List CommStep) : RouteTable :=
  let keys := ((steps.filter (fun s => decide (s.op = StepOp.send))).map
      (fun s => (s.deviceName, s.peerName, (0 : Nat)))).dedup
  keys.map (fun k =>
    (k, (steps.filter (fun s =>
          decide (s.op = StepOp.send ∧ s.deviceName = k.1 ∧
            s.peerName = k.2.1))).map (fun s => s.stepId)))

/-! ## PlanPool, mapper, PlanManager, PlanGenerator -/

/-- The two built-in algorithm kinds. -/
inductive PlanAlg where
  | ringAllreduce
  | reduceBroadcastAllreduce
deriving DecidableEq

/-- A registered plan algorithm: category, name, and behaviour. -/
structure PlanObj where
  category : String
  planName : String
  alg : PlanAlg
deriving DecidableEq

/-- Modelled from the spec (ring_allreduce_plan.py is missing): the ring
all-reduce plan object registers under category "Allreduce". -/
def RingAllreducePlan (plan_name : String) : PlanObj :=
  ⟨"Allreduce", plan_name, PlanAlg.ringAllreduce⟩

/-- Modelled from the spec (reduce_broadcast_allreduce_plan.py is
missing): the reduce-broadcast all-reduce plan object registers under
category "Allreduce". -/
def ReduceBroadcastAllreducePlan (plan_name : String) : PlanObj :=
  ⟨"Allreduce", plan_name, PlanAlg.reduceBroadcastAllreduce⟩

/-- Modelled from the spec (plan_pool.py is missing): a registry of plan
objects keyed by `(category, name)`. -/
abbrev PlanPool := List PlanObj

/-- Modelled from the spec: registration appends to the registry. -/
def PlanPool.add_plan (pool : PlanPool) (p : PlanObj) : PlanPool :=
  pool ++ [p]

/-- Modelled from the spec: lookup by `(category, name)`. -/
def PlanPool.get_plan (pool : PlanPool) (category name : String) :
    Option PlanObj :=
  pool.find? (fun p => decide (p.category = category ∧ p.planName = name))

/-- Modelled from the spec (plan_mapper.py is missing): the mapper state,
holding its resource pool and the `route_info` table populated as a side
effect of plan generation. -/
structure Mapper where
  resource_pool : ResourcePool
  route_info : RouteTable
deriving DecidableEq

/-- Modelled from the spec: a freshly constructed GPU round-robin mapper
with an empty route table. -/
def GPURoundRobinMapper (resource_pool : ResourcePool) : Mapper :=
  ⟨resource_pool, []⟩

/-- Modelled from the spec: the GPU round-robin placement policy selects
N GPU-kind devices from the pool in declaration order (round-robin
across hosts degenerates to declaration order on a single host), and
fails when fewer eligible devices exist than ranks. -/
def gpu_round_robin_assign (rp : ResourcePool) (n : Nat) :
    Option (List String) :=
  let gpus := (rp.devices.filter (fun d => decide (d.kind = DevKind.gpu))).map
    (fun d => d.name)
  if n ≤ gpus.length then some (gpus.take n) else none

/-- Plan-generation errors (spec error kinds). -/
inductive PlanErr where
  | unknownPlan
  | insufficientResources
deriving DecidableEq

/-- Modelled from the spec: run one plan algorithm on a placement and a
node list, producing the plan and the route table it populated. -/
def run_plan_alg (p : PlanObj) (placement : List String)
    (nodelist : List NodeEntry) : Plan × RouteTable :=
  let entry := nodelist.headD default
  let steps :=
    match p.alg with
    | PlanAlg.ringAllreduce =>
        ring_steps placement entry.tensorName entry.tensorSize
    | PlanAlg.reduceBroadcastAllreduce =>
        reduce_broadcast_steps placement entry.tensorName entry.tensorSize
  (⟨p.planName, steps⟩, route_of_steps steps)

/-- Modelled from the spec (plan_manager.py is missing): the manager holds
the plan pool and the device mapper. -/
structure PlanManager where
  plan_pool : PlanPool
  mapper : Mapper
deriving DecidableEq

/-- Modelled from the spec: `PlanManager.get_execution_plan(node_list,
category, name)` resolves the algorithm via PlanPool, derives placement
via the mapper's policy, invokes the algorithm and returns the assembled
plan; the mapper's `route_info` is updated as a side effect, returned
here as the updated manager state. -/
def PlanManager.get_execution_plan (m : PlanManager)
    (nodelist : List NodeEntry) (category name : String) :
    Except PlanErr Plan × PlanManager :=
  match m.plan_pool.get_plan category name with
  | none => (Except.error PlanErr.unknownPlan, m)
  | some p =>
    match gpu_round_robin_assign m.mapper.resource_pool nodelist.length with
    | none => (Except.error PlanErr.insufficientResources, m)
    | some placement =>
      let pr := run_plan_alg p placement nodelist
      (Except.ok pr.1, ⟨m.plan_pool, ⟨m.mapper.resource_pool, pr.2⟩⟩)

/-- The PlanGenerator state (plan_generator.py, `__init__` fields):
resource pool, node list, plan pool, mapper and plan manager.  In the
source the manager holds the same mapper object as the generator; the
pure embedding keeps both fields and updates them together. -/
structure PlanGenerator where
  resource_pool : ResourcePool
  nodelist : List NodeEntry
  plan_pool : PlanPool
  mapper : Mapper
  planmanager : PlanManager
deriving DecidableEq

/-- plan_generator.py `PlanGenerator.__init__`: stores the node list and
resource pool, builds a PlanPool pre-populated with the ring and
reduce-broadcast plans, a GPU round-robin mapper over the pool, and the
PlanManager over both. -/
def PlanGenerator.init (nodelist : List NodeEntry)
    (resource_pool : ResourcePool) : PlanGenerator :=
  let pool := (PlanPool.add_plan
    (PlanPool.add_plan [] (RingAllreducePlan "ring"))
    (ReduceBroadcastAllreducePlan "ReduceBroadcast"))
  let mapper := GPURoundRobinMapper resource_pool
  ⟨resource_pool, nodelist, pool, mapper, ⟨pool, mapper⟩⟩

/-- plan_generator.py `get_execution_plan`: forwards the stored node list
with the requested type and name to the plan manager.  The mapper field
mirrors the manager's mapper (one shared object in the source). -/
def PlanGenerator.get_execution_plan (g : PlanGenerator)
    (plan_type plan_name : String) :
    Except PlanErr Plan × PlanGenerator :=
  let rm := g.planmanager.get_execution_plan g.nodelist plan_type plan_name
  (rm.1, ⟨g.resource_pool, g.nodelist, g.plan_pool, rm.2.mapper, rm.2⟩)

/-- plan_generator.py `get_links_info`: returns the resource pool's link
list; the generator state is unchanged. -/
def PlanGenerator.get_links_info (g : PlanGenerator) :
    List Link × PlanGenerator :=
  (g.resource_pool.get_links_as_list, g)

/-- plan_generator.py `get_routing_info`: returns the mapper's route_info;
the generator state is unchanged. -/
def PlanGenerator.get_routing_info (g : PlanGenerator) :
    RouteTable × PlanGenerator :=
  (g.mapper.route_info, g)

/-- plan_generator.py `get_device_info`: returns the resource pool's
device records; the generator state is unchanged. -/
def PlanGenerator.get_device_info (g : PlanGenerator) :
    List (List (String × String)) × PlanGenerator :=
  (g.resource_pool.get_computational_hardware_as_list, g)

/-! ## Serialization (for the determinism claim) -/

def StepOp.str : StepOp → String
  | .send => "SEND"
  | .recv => "RECV"

def serialize_step (s : CommStep) : String :=
  toString s.stepId ++ ";" ++ s.deviceName ++ ";" ++ s.op.str ++ ";" ++
    s.peerName ++ ";" ++ s.tensorName ++ ";" ++ toString s.chunkOffset ++
    ";" ++ toString s.chunkLen

def serialize_plan : Except PlanErr Plan → String
  | Except.error PlanErr.unknownPlan => "error:unknown plan"
  | Except.error PlanErr.insufficientResources => "error:insufficient resources"
  | Except.ok p =>
      p.algorithmName ++ "|" ++
        String.intercalate "," (p.steps.map serialize_step)

/-! ## Concrete inputs used by the scenario claims -/

/-- One host with two GPU devices linked bidirectionally (the spec's
concrete 2-device scenario). -/
def two_gpu_pool : ResourcePool :=
  ⟨[⟨"GPU/0", DevKind.gpu, "13194139533312.0bps"⟩,
    ⟨"GPU/1", DevKind.gpu, "13194139533312.0bps"⟩],
   [⟨"GPU/0", "GPU/1", 0, "107374182400.0bps"⟩,
    ⟨"GPU/1", "GPU/0", 0, "107374182400.0bps"⟩]⟩

/-- A node list of two ranks carrying one tensor each. -/
def two_rank_nodelist : List NodeEntry :=
  [⟨0, "device_0", "t0", 64⟩, ⟨1, "device_1", "t0", 64⟩]

/-- The device pool asserted by tests/plan_gen/test_plan_generator.py:
two CPUs and four GPUs on one host. -/
def test_pool : ResourcePool :=
  ⟨[⟨"/server/hostname1/CPU/0/", DevKind.cpu, "12884901888.0bps"⟩,
    ⟨"/server/hostname1/CPU/1/", DevKind.cpu, "12884901888.0bps"⟩,
    ⟨"/server/hostname1/GPU/0/", DevKind.gpu, "13194139533312.0bps"⟩,
    ⟨"/server/hostname1/GPU/1/", DevKind.gpu, "13194139533312.0bps"⟩,
    ⟨"/server/hostname1/GPU/2/", DevKind.gpu, "13194139533312.0bps"⟩,
    ⟨"/server/hostname1/GPU/3/", DevKind.gpu, "13194139533312.0bps"⟩],
   []⟩

/-! ## Helper lemmas about the plan manager -/

/-- The result component of `PlanManager.get_execution_plan` does not
depend on the mapper's `route_info` field. -/
theorem planManager_result_route_free (pool : PlanPool) (rp : ResourcePool)
    (ri ri' : RouteTable) (L : List NodeEntry) (c n : String) :
    (PlanManager.get_execution_plan ⟨pool, ⟨rp, ri⟩⟩ L c n).1 =
      (PlanManager.get_execution_plan ⟨pool, ⟨rp, ri'⟩⟩ L c n).1 := by
  unfold PlanManager.get_execution_plan
  cases pool.get_plan c n
  · rfl
  · cases gpu_round_robin_assign rp L.length
    · rfl
    · rfl

/-- Running `PlanManager.get_execution_plan` again on the state it
returned gives the same result. -/
theorem planManager_repeat (m : PlanManager) (L : List NodeEntry)
    (c n : String) :
    ((m.get_execution_plan L c n).2.get_execution_plan L c n).1 =
      (m.get_execution_plan L c n).1 := by
  obtain ⟨pool, rp, ri⟩ := m
  show ((PlanManager.get_execution_plan ⟨pool, ⟨rp, ri⟩⟩ L c n).2.get_execution_plan L c n).1 = _
  unfold PlanManager.get_execution_plan
  cases hp : pool.get_plan c n with
  | none => simp [PlanManager.get_execution_plan, hp]
  | some p =>
    cases ha : gpu_round_robin_assign rp L.length with
    | none => simp [PlanManager.get_execution_plan, hp, ha]
    | some placement => simp [PlanManager.get_execution_plan, hp, ha]

/-! ## Claims C1-C6 -/

/-- C1: plan generation is deterministic.  For a fixed node list,
resource pool, plan type and plan name, any two generators freshly
constructed from those inputs serialize the generated plan to the same
bytes, and repeating the call on the state returned by a first call
gives the same serialized plan: the computation is a pure function of
its inputs with no hidden global state. -/
theorem get_execution_plan_deterministic (L : List NodeEntry)
    (R : ResourcePool) (t n : String) (g1 g2 : PlanGenerator)
    (h1 : g1 = PlanGenerator.init L R) (h2 : g2 = PlanGenerator.init L R) :
    serialize_plan (g1.get_execution_plan t n).1 =
      serialize_plan (g2.get_execution_plan t n).1 ∧
    serialize_plan ((g1.get_execution_plan t n).2.get_execution_plan t n).1 =
      serialize_plan (g1.get_execution_plan t n).1 := by
  subst h1
  subst h2
  refine ⟨rfl, ?_⟩
  show serialize_plan
      (((((PlanGenerator.init L R).get_execution_plan t n).2.planmanager.get_execution_plan
        (((PlanGenerator.init L R).get_execution_plan t n).2.nodelist) t n)).1) = _
  have hn : ((PlanGenerator.init L R).get_execution_plan t n).2.nodelist = L := rfl
  have hm : ((PlanGenerator.init L R).get_execution_plan t n).2.planmanager =
      ((PlanGenerator.init L R).planmanager.get_execution_plan L t n).2 := rfl
  rw [hn, hm, planManager_repeat]
  rfl

/-- C1 witness: the determinism theorem applied at the concrete
two-GPU, two-rank input. -/
theorem get_execution_plan_deterministic_witness :
    serialize_plan ((PlanGenerator.init two_rank_nodelist two_gpu_pool).get_execution_plan "Allreduce" "ring").1 =
      serialize_plan ((PlanGenerator.init two_rank_nodelist two_gpu_pool).get_execution_plan "Allreduce" "ring").1 ∧
    serialize_plan (((PlanGenerator.init two_rank_nodelist two_gpu_pool).get_execution_plan "Allreduce" "ring").2.get_execution_plan "Allreduce" "ring").1 =
      serialize_plan ((PlanGenerator.init two_rank_nodelist two_gpu_pool).get_execution_plan "Allreduce" "ring").1 :=
  get_execution_plan_deterministic two_rank_nodelist two_gpu_pool
    "Allreduce" "ring" _ _ rfl rfl

/-- C3: a freshly constructed PlanGenerator's plan pool holds exactly the
ring all-reduce plan named "ring" and the reduce-broadcast all-reduce
plan named "ReduceBroadcast", both under category "Allreduce". -/
theorem planGenerator_prepopulates_plan_pool (L : List NodeEntry)
    (R : ResourcePool) :
    (PlanGenerator.init L R).plan_pool =
      [RingAllreducePlan "ring",
       ReduceBroadcastAllreducePlan "ReduceBroadcast"] ∧
    (RingAllreducePlan "ring").category = "Allreduce" ∧
    (RingAllreducePlan "ring").alg = PlanAlg.ringAllreduce ∧
    (ReduceBroadcastAllreducePlan "ReduceBroadcast").category = "Allreduce" ∧
    (ReduceBroadcastAllreducePlan "ReduceBroadcast").alg =
      PlanAlg.reduceBroadcastAllreduce :=
  ⟨rfl, rfl, rfl, rfl, rfl⟩

/-- C4: the façade applies no transformation.  `PlanGenerator.
get_execution_plan(t, n)` returns exactly the value computed by
`PlanManager.get_execution_plan` on the stored node list, for the
manager built from the generator's plan pool and the GPU round-robin
mapper over the resource pool. -/
theorem planGenerator_refines_planManager (L : List NodeEntry)
    (R : ResourcePool) (t n : String) :
    ((PlanGenerator.init L R).get_execution_plan t n).1 =
      (PlanManager.get_execution_plan
        ⟨(PlanGenerator.init L R).plan_pool, GPURoundRobinMapper R⟩
        L t n).1 :=
  rfl

/-- C5: the query surface is side-effect-free.  `get_links_info`,
`get_routing_info` and `get_device_info` leave the generator state
(resource pool, node list, plan pool, mapper, plan manager) unchanged,
and calling any of them before a planning call does not change the
planning call's outcome. -/
theorem query_surface_side_effect_free (g : PlanGenerator) :
    (g.get_links_info).2 = g ∧
    (g.get_routing_info).2 = g ∧
    (g.get_device_info).2 = g ∧
    (∀ t n : String,
      ((g.get_links_info).2.get_execution_plan t n) =
        g.get_execution_plan t n) ∧
    (∀ t n : String,
      ((g.get_routing_info).2.get_execution_plan t n) =
        g.get_execution_plan t n) ∧
    (∀ t n : String,
      ((g.get_device_info).2.get_execution_plan t n) =
        g.get_execution_plan t n) :=
  ⟨rfl, rfl, rfl, fun _ _ => rfl, fun _ _ => rfl, fun _ _ => rfl⟩

/-- C6 counterexample: on the pool asserted by the repository's own test,
every device record carries the keys "name", "type", "performance" -
no record has a "kind" field, contradicting the claim's field list. -/
theorem get_device_info_no_kind_field :
    (∀ r ∈ ((PlanGenerator.init [] test_pool).get_device_info).1,
      r.map Prod.fst = ["name", "type", "performance"]) ∧
    (∃ r ∈ ((PlanGenerator.init [] test_pool).get_device_info).1,
      ¬ "kind" ∈ r.map Prod.fst) := by
  constructor
  · decide
  · decide

/-- C6 (amended): `get_device_info` returns one record per device of the
resource pool, in declaration order, and each record has exactly the
fields "name", "type" and "performance" (the spec's `kind` is stored
under the key "type", as the repository's test asserts). -/
theorem get_device_info_fields (L : List NodeEntry) (R : ResourcePool) :
    ((PlanGenerator.init L R).get_device_info).1.length =
      R.devices.length ∧
    ((PlanGenerator.init L R).get_device_info).1.map
        (fun r => r.map Prod.fst) =
      R.devices.map (fun _ => ["name", "type", "performance"]) ∧
    ((PlanGenerator.init L R).get_device_info).1.map
        (fun r => r.lookup "name") =
      R.devices.map (fun d => some d.name) ∧
    ((PlanGenerator.init L R).get_device_info).1.map
        (fun r => r.lookup "type") =
      R.devices.map (fun d => some d.kind.str) ∧
    ((PlanGenerator.init L R).get_device_info).1.map
        (fun r => r.lookup "performance") =
      R.devices.map (fun d => some d.performance) := by
  refine ⟨by simp [PlanGenerator.get_device_info, PlanGenerator.init,
      ResourcePool.get_computational_hardware_as_list], ?_, ?_, ?_, ?_⟩ <;>
    · show (R.devices.map (fun d =>
          [("name", d.name), ("type", d.kind.str),
           ("performance", d.performance)])).map _ = R.devices.map _
      rw [List.map_map]
      exact List.map_congr_left (fun d _ => rfl)

/-- C2 counterexample: in the two-GPU, two-rank ring scenario the plan
has exactly the two step ids 0 and 1, but no routing-table entry lists
both of them - each direction's entry lists only the step id of the
SEND traversing it, refuting "each entry listing exactly those 2
step_ids". -/
theorem two_gpu_ring_route_entries_not_both_ids :
    (((PlanGenerator.init two_rank_nodelist two_gpu_pool).get_execution_plan
        "Allreduce" "ring").1.map Plan.stepIds = Except.ok [0, 1]) ∧
    ¬ (∀ e ∈ (((PlanGenerator.init two_rank_nodelist two_gpu_pool).get_execution_plan
          "Allreduce" "ring").2.get_routing_info).1,
        (0 : Nat) ∈ e.2 ∧ (1 : Nat) ∈ e.2) := by
  constructor
  · decide
  · decide

/-- C2 (amended): for one host with two bidirectionally linked GPUs and a
node list of two ranks with one tensor each, the Ring plan gives each
device exactly 2 steps - one SEND and one RECV alternating with its sole
peer - and the routing table has exactly one entry per direction, keyed
(GPU/0, GPU/1, 0) and (GPU/1, GPU/0, 0), the two entries together
listing exactly the plan's 2 step ids, one per entry. -/
theorem two_gpu_ring_plan_shape :
    (((PlanGenerator.init two_rank_nodelist two_gpu_pool).get_execution_plan
        "Allreduce" "ring").1.toOption.map (fun p =>
          ((p.stepsOfDevice "GPU/0").map (fun s => (s.op, s.peerName, s.stepId)),
           (p.stepsOfDevice "GPU/1").map (fun s => (s.op, s.peerName, s.stepId)),
           (p.stepsOfDevice "GPU/0").length,
           (p.stepsOfDevice "GPU/1").length,
           p.stepIds)) =
      some
        ([(StepOp.send, "GPU/1", 0), (StepOp.recv, "GPU/1", 1)],
         [(StepOp.recv, "GPU/0", 0), (StepOp.send, "GPU/0", 1)],
         2, 2, [0, 1])) ∧
    ((((PlanGenerator.init two_rank_nodelist two_gpu_pool).get_execution_plan
        "Allreduce" "ring").2.get_routing_info).1 =
      [(("GPU/0", "GPU/1", 0), [0]), (("GPU/1", "GPU/0", 0), [1])]) := by
  exact ⟨rfl, rfl⟩

/-! ## scaler_graph: graph model and DataParallelism (parallelism.py) -/

/-- Node operator kinds relevant to parallelism.py: `ApplyOp` carries its
`info["gradient_index"]`, `AllreduceOp` is the inserted collective, and
any other operator is opaque to the rewrite. -/
inductive ScOp where
  | applyOp (gradientIndex : Nat)
  | allreduceOp
  | otherOp (tag : String)
deriving DecidableEq, Inhabited

/-- A graph node: name, operator and attribute dictionary. -/
structure ScNode where
  name : String
  op : ScOp
  attrs : List (String × String)
deriving DecidableEq, Inhabited

/-- A directed edge from output `srcIdx` of node `srcNode` into input
`destIdx` of node `destNode`. -/
structure ScEdge where
  srcNode : String
  srcIdx : Nat
  destNode : String
  destIdx : Nat
deriving DecidableEq, Inhabited

/-- Modelled from the spec (the IR graph class is missing from src; the
spec treats it as the external node/edge representation): node list plus
edge list, nodes referenced by name. -/
structure ScGraph where
  nodes : List ScNode
  edges : List ScEdge
deriving DecidableEq, Inhabited

/-- Modelled from the spec: node lookup by name. -/
def ScGraph.find_node (g : ScGraph) (name : String) : Option ScNode :=
  g.nodes.find? (fun nd => decide (nd.name = name))

/-- Modelled from the spec: `node.in_edges[i]` - the edge entering input
slot `i` of the named node. -/
def ScGraph.in_edge (g : ScGraph) (name : String) (i : Nat) : Option ScEdge :=
  g.edges.find? (fun e => decide (e.destNode = name ∧ e.destIdx = i))

/-- Modelled from the spec: `graph.remove_edge(edge)`. -/
def ScGraph.remove_edge (g : ScGraph) (e : ScEdge) : ScGraph :=
  ⟨g.nodes, g.edges.erase e⟩

/-- Modelled from the spec: `graph.add_node_and_edge(name, op,
input_node_idxes, 1, attrs)` - appends the node and one edge per input,
input `k` wired from the k-th `(src, src_idx)` pair. -/
def ScGraph.add_node_and_edge (g : ScGraph) (name : String) (op : ScOp)
    (inputs : List (String × Nat)) (attrs : List (String × String)) :
    ScGraph :=
  ⟨g.nodes ++ [⟨name, op, attrs⟩],
   g.edges ++ (inputs.enum.map (fun p => ⟨p.2.1, p.2.2, name, p.1⟩))⟩

/-- Modelled from the spec: `graph.add_edge(src, src_idx, dest, dest_idx)`. -/
def ScGraph.add_edge (g : ScGraph) (src : String) (si : Nat)
    (dest : String) (di : Nat) : ScGraph :=
  ⟨g.nodes, g.edges ++ [⟨src, si, dest, di⟩]⟩

/-- Modelled from the spec: `graph.copy()` duplicates the graph value. -/
def ScGraph.copy (g : ScGraph) : ScGraph := g

/-- parallelism.py, one iteration of `DataParallelism.run_on_graph`'s
loop body on one node: non-Apply nodes are skipped; for an Apply node
the in-edge at `gradient_index` is removed, an all-reduce node named
`<src>_allreduce` is inserted fed from the gradient's source, and wired
into the Apply node's freed slot.  `none` models the uncaught Python
exception when the gradient in-edge, the source node or its "T"
attribute is missing. -/
def dp_step (num_devices : Nat) (g : ScGraph) (node : ScNode) :
    Option ScGraph :=
  match node.op with
  | ScOp.applyOp gi =>
    match g.in_edge node.name gi with
    | none => none
    | some e =>
      match g.find_node e.srcNode with
      | none => none
      | some src =>
        match src.attrs.lookup "T" with
        | none => none
        | some tval =>
          let node_name := e.srcNode ++ "_allreduce"
          let attrs := [("tensor_name", node_name), ("T", tval),
                        ("reduction", "sum"),
                        ("num_devices", toString num_devices)]
          let g1 := g.remove_edge e
          let g2 := g1.add_node_and_edge node_name ScOp.allreduceOp
            [(e.srcNode, e.srcIdx)] attrs
          some (g2.add_edge node_name 0 e.destNode e.destIdx)
  | _ => some g

/-- parallelism.py `DataParallelism.run_on_graph`: rewrites every Apply
node of the graph in node order (the all-reduce nodes appended during
the loop are not Apply nodes, so iterating the original node list is
faithful to the source's in-place iteration), then sets
`parallel_graphs` to `len(devices)` copies of the rewritten graph and
returns True. -/
def run_on_graph (devices : List String) (g : ScGraph) :
    Option (Bool × ScGraph × List ScGraph) :=
  match g.nodes.foldlM (fun acc node => dp_step devices.length acc node) g with
  | none => none
  | some gFinal => some (true, gFinal, List.replicate devices.length gFinal)

/-- Is the node an Apply node? -/
def is_apply (nd : ScNode) : Bool :=
  match nd.op with
  | ScOp.applyOp _ => true
  | _ => false

/-- The gradient index of an Apply node (0 for other nodes). -/
def gradIdx (nd : ScNode) : Nat :=
  match nd.op with
  | ScOp.applyOp gi => gi
  | _ => 0

/-- The gradient in-edge of an Apply node in the original graph. -/
def gradEdge (g : ScGraph) (nd : ScNode) : ScEdge :=
  (g.in_edge nd.name (gradIdx nd)).getD default

/-- The name of the all-reduce node inserted for an Apply node. -/
def arName (g : ScGraph) (nd : ScNode) : String :=
  (gradEdge g nd).srcNode ++ "_allreduce"

/-- The "T" attribute value of the gradient's source node. -/
def srcTval (g : ScGraph) (nd : ScNode) : String :=
  (((g.find_node (gradEdge g nd).srcNode).map
    (fun s => (s.attrs.lookup "T").getD "")).getD "")

/-- The attribute dictionary of the inserted all-reduce node. -/
def arAttrs (num_devices : Nat) (g : ScGraph) (nd : ScNode) :
    List (String × String) :=
  [("tensor_name", arName g nd), ("T", srcTval g nd),
   ("reduction", "sum"), ("num_devices", toString num_devices)]

/-- The all-reduce node inserted for an Apply node. -/
def arNode (num_devices : Nat) (g : ScGraph) (nd : ScNode) : ScNode :=
  ⟨arName g nd, ScOp.allreduceOp, arAttrs num_devices g nd⟩

/-- The two edges inserted for an Apply node: source into the all-reduce
node, and all-reduce node into the Apply node's freed slot. -/
def addsOf (g : ScGraph) (nd : ScNode) : List ScEdge :=
  [⟨(gradEdge g nd).srcNode, (gradEdge g nd).srcIdx, arName g nd, 0⟩,
   ⟨arName g nd, 0, nd.name, gradIdx nd⟩]

/-- Erase the listed edges one by one. -/
def eraseList (l : List ScEdge) : List ScEdge → List ScEdge
  | [] => l
  | e :: rem => eraseList (l.erase e) rem

/-- The graph state after the loop has processed the prefix `done` of
the node list. -/
def accOf (num_devices : Nat) (g : ScGraph) (done : List ScNode) : ScGraph :=
  ⟨g.nodes ++ (done.filter is_apply).map (fun a => arNode num_devices g a),
   eraseList g.edges ((done.filter is_apply).map (fun a => gradEdge g a)) ++
     ((done.filter is_apply).map (fun a => addsOf g a)).flatten⟩

/-- Well-formedness of a graph for the data-parallel rewrite: distinct
node names, distinct edges, at most one in-edge per input slot, every
Apply node has its gradient in-edge whose source node exists and
carries a "T" attribute, and no node is already named like an inserted
all-reduce node. -/
def dp_wf (g : ScGraph) : Prop :=
  (g.nodes.map ScNode.name).Nodup ∧
  g.edges.Nodup ∧
  (∀ e1 ∈ g.edges, ∀ e2 ∈ g.edges,
    e1.destNode = e2.destNode → e1.destIdx = e2.destIdx → e1 = e2) ∧
  (∀ nd ∈ g.nodes, is_apply nd = true →
    ∃ e ∈ g.edges, e.destNode = nd.name ∧ e.destIdx = gradIdx nd ∧
      ∃ src ∈ g.nodes, src.name = e.srcNode ∧
        (src.attrs.lookup "T").isSome = true) ∧
  (∀ nd ∈ g.nodes, ∀ m ∈ g.nodes, ¬ nd.name = m.name ++ "_allreduce")

instance (g : ScGraph) : Decidable (dp_wf g) := by
  unfold dp_wf
  infer_instance

/-! ### List helper lemmas for the rewrite proof -/

theorem find?_append_some {α : Type} (p : α → Bool) (l1 l2 : List α) (x : α)
    (h : l1.find? p = some x) : (l1 ++ l2).find? p = some x := by
  induction l1 with
  | nil => simp at h
  | cons a t ih =>
    by_cases hp : p a
    · rw [List.find?_cons_of_pos _ hp] at h
      rw [List.cons_append, List.find?_cons_of_pos _ hp]
      exact h
    · rw [List.find?_cons_of_neg _ hp] at h
      rw [List.cons_append, List.find?_cons_of_neg _ hp]
      exact ih h

theorem find?_unique {α : Type} (p : α → Bool) (l : List α) (x : α)
    (hx : x ∈ l) (hpx : p x = true)
    (huniq : ∀ y ∈ l, p y = true → y = x) : l.find? p = some x := by
  induction l with
  | nil => simp at hx
  | cons a t ih =>
    by_cases hp : p a
    · have hax : a = x := huniq a (List.mem_cons_self a t) hp
      rw [List.find?_cons_of_pos _ hp, hax]
    · rw [List.find?_cons_of_neg _ hp]
      rcases List.mem_cons.mp hx with hxa | hxt
      · exact absurd (hxa ▸ hpx) hp
      · exact ih hxt (fun y hy hpy => huniq y (List.mem_cons_of_mem _ hy) hpy)

theorem eraseList_append_eraseList (l r1 r2 : List ScEdge) :
    eraseList l (r1 ++ r2) = eraseList (eraseList l r1) r2 := by
  induction r1 generalizing l with
  | nil => rfl
  | cons e t ih =>
    rw [List.cons_append]
    show eraseList (l.erase e) (t ++ r2) = _
    rw [ih]
    rfl

theorem eraseList_nodup (r : List ScEdge) (l : List ScEdge) (h : l.Nodup) :
    (eraseList l r).Nodup := by
  induction r generalizing l with
  | nil => exact h
  | cons e t ih => exact ih _ (h.erase e)

theorem eraseList_mem (r : List ScEdge) (l : List ScEdge) (x : ScEdge)
    (h : l.Nodup) : x ∈ eraseList l r ↔ x ∈ l ∧ x ∉ r := by
  induction r generalizing l with
  | nil => simp [eraseList]
  | cons e t ih =>
    show x ∈ eraseList (l.erase e) t ↔ _
    rw [ih _ (h.erase e), h.mem_erase_iff]
    simp only [List.mem_cons]
    tauto

theorem name_inj {g : ScGraph} (h : (g.nodes.map ScNode.name).Nodup)
    {n1 n2 : ScNode} (h1 : n1 ∈ g.nodes) (h2 : n2 ∈ g.nodes)
    (he : n1.name = n2.name) : n1 = n2 :=
  List.inj_on_of_nodup_map h h1 h2 he

theorem ne_append_allreduce (s : String) : s ≠ s ++ "_allreduce" := by
  intro h
  have hlen := congrArg String.length h
  rw [String.length_append] at hlen
  have : (0 : Nat) < ("_allreduce" : String).length := by decide
  omega

/-- Under well-formedness, an Apply node's gradient in-edge lookup finds
exactly `gradEdge g nd`, which sits in the edge list, targets the node's
gradient slot, and has a source node carrying a "T" attribute. -/
theorem grad_edge_spec {g : ScGraph} (hwf : dp_wf g) {nd : ScNode}
    (hnd : nd ∈ g.nodes) (ha : is_apply nd = true) :
    g.in_edge nd.name (gradIdx nd) = some (gradEdge g nd) ∧
    gradEdge g nd ∈ g.edges ∧
    (gradEdge g nd).destNode = nd.name ∧
    (gradEdge g nd).destIdx = gradIdx nd ∧
    ∃ src ∈ g.nodes, src.name = (gradEdge g nd).srcNode ∧
      (src.attrs.lookup "T").isSome = true := by
  obtain ⟨hnames, hedges, hslot, happly, hfresh⟩ := hwf
  obtain ⟨e, he_mem, he_dst, he_idx, src, hsrc_mem, hsrc_name, hT⟩ :=
    happly nd hnd ha
  have hfind : g.in_edge nd.name (gradIdx nd) = some e := by
    apply find?_unique _ _ _ he_mem
    · simp [he_dst, he_idx]
    · intro y hy hpy
      simp only [decide_eq_true_eq] at hpy
      exact hslot y hy e he_mem (by rw [hpy.1, he_dst]) (by rw [hpy.2, he_idx])
  have hge : gradEdge g nd = e := by
    simp [gradEdge, hfind]
  rw [hge, hfind]
  exact ⟨rfl, he_mem, he_dst, he_idx, src, hsrc_mem, hsrc_name, hT⟩

/-- Two graphs with equal components are equal. -/
theorem ScGraph.ext_nodes_edges : ∀ {a b : ScGraph},
    a.nodes = b.nodes → a.edges = b.edges → a = b := by
  intro a b h1 h2
  cases a
  cases b
  cases h1
  cases h2
  rfl

/-- Explicit computation of `dp_step` on an Apply node whose lookups
succeed. -/
theorem dp_step_apply_eq (ndev : Nat) (G : ScGraph) (node : ScNode)
    (gi : Nat) (hop : node.op = ScOp.applyOp gi) (e : ScEdge)
    (src : ScNode) (tv : String)
    (hin : G.in_edge node.name gi = some e)
    (hfn : G.find_node e.srcNode = some src)
    (htv : src.attrs.lookup "T" = some tv) :
    dp_step ndev G node = some
      ⟨G.nodes ++ [⟨e.srcNode ++ "_allreduce", ScOp.allreduceOp,
          [("tensor_name", e.srcNode ++ "_allreduce"), ("T", tv),
           ("reduction", "sum"), ("num_devices", toString ndev)]⟩],
        (G.edges.erase e ++
          [⟨e.srcNode, e.srcIdx, e.srcNode ++ "_allreduce", 0⟩]) ++
          [⟨e.srcNode ++ "_allreduce", 0, e.destNode, e.destIdx⟩]⟩ := by
  unfold dp_step
  simp only [hop, hin, hfn, htv]
  rfl

/-- One loop iteration takes the accumulated graph for prefix `done` to
the accumulated graph for `done ++ [node]`. -/
theorem dp_step_eq (ndev : Nat) {g : ScGraph} (hwf : dp_wf g)
    (done : List ScNode) (node : ScNode) (rest : List ScNode)
    (hsplit : g.nodes = done ++ node :: rest) :
    dp_step ndev (accOf ndev g done) node =
      some (accOf ndev g (done ++ [node])) := by
  obtain ⟨hnames, hedges, hslot, happly, hfresh⟩ := id hwf
  by_cases happ : is_apply node = true
  case neg =>
    have hfilter : (done ++ [node]).filter is_apply = done.filter is_apply := by
      simp [List.filter_append, happ]
    have hstep : dp_step ndev (accOf ndev g done) node =
        some (accOf ndev g done) := by
      unfold dp_step
      cases hopc : node.op with
      | applyOp gi => exact absurd (by simp [is_apply, hopc]) happ
      | allreduceOp => rfl
      | otherOp t => rfl
    rw [hstep]
    simp only [accOf, hfilter]
  case pos =>
    cases hopc : node.op with
    | allreduceOp => simp [is_apply, hopc] at happ
    | otherOp t => simp [is_apply, hopc] at happ
    | applyOp gi =>
    have hnode : node ∈ g.nodes := by
      rw [hsplit]
      exact List.mem_append_right _ (List.mem_cons_self _ _)
    have hgidx : gradIdx node = gi := by simp [gradIdx, hopc]
    have spec := grad_edge_spec hwf hnode happ
    have hdone_sub : ∀ a ∈ done, a ∈ g.nodes := by
      intro a ha
      rw [hsplit]
      exact List.mem_append_left _ ha
    have hdone_ne : ∀ a ∈ done, a.name ≠ node.name := by
      have hnames' := hnames
      rw [hsplit, List.map_append] at hnames'
      have hdisj := (List.nodup_append.mp hnames').2.2
      intro a ha heq
      exact hdisj (List.mem_map_of_mem _ ha)
        (heq ▸ (by simp : node.name ∈ (node :: rest).map ScNode.name))
    -- the gradient edge survives in the accumulated edge list
    have hE_in_erase : gradEdge g node ∈
        eraseList g.edges ((done.filter is_apply).map (fun a => gradEdge g a)) := by
      rw [eraseList_mem _ _ _ hedges]
      refine ⟨spec.2.1, ?_⟩
      intro hEP
      rw [List.mem_map] at hEP
      obtain ⟨a, haf, hEa⟩ := hEP
      have haf' := List.mem_filter.mp haf
      have hag : a ∈ g.nodes := hdone_sub a haf'.1
      have specA := grad_edge_spec hwf hag haf'.2
      have : a.name = node.name := by
        rw [← specA.2.2.1, hEa, spec.2.2.1]
      exact hdone_ne a haf'.1 this
    -- gradient in-edge lookup on the accumulated graph
    have hin : (accOf ndev g done).in_edge node.name gi =
        some (gradEdge g node) := by
      apply find?_unique _ _ _ (List.mem_append_left _ hE_in_erase)
      · rw [decide_eq_true_eq]
        exact ⟨spec.2.2.1, by rw [spec.2.2.2.1, hgidx]⟩
      · intro y hy hpy
        simp only [decide_eq_true_eq] at hpy
        rcases List.mem_append.mp hy with hyL | hyR
        · have hyG := ((eraseList_mem _ _ _ hedges).mp hyL).1
          exact hslot y hyG (gradEdge g node) spec.2.1
            (by rw [hpy.1, spec.2.2.1]) (by rw [hpy.2, spec.2.2.2.1, hgidx])
        · exfalso
          rw [List.mem_flatten] at hyR
          obtain ⟨l, hl, hyl⟩ := hyR
          rw [List.mem_map] at hl
          obtain ⟨a, haf, rfl⟩ := hl
          have haf' := List.mem_filter.mp haf
          have hag : a ∈ g.nodes := hdone_sub a haf'.1
          have specA := grad_edge_spec hwf hag haf'.2
          obtain ⟨srcA, hsrcA_mem, hsrcA_name, _⟩ := specA.2.2.2.2
          simp only [addsOf, List.mem_cons, List.not_mem_nil, or_false] at hyl
          rcases hyl with rfl | rfl
          · exact hfresh node hnode srcA hsrcA_mem
              (by rw [← hpy.1]; show arName g a = _; rw [arName, hsrcA_name])
          · exact hdone_ne a haf'.1 (hpy.1)
    -- source-node lookup on the accumulated graph
    obtain ⟨src, hsrc_mem, hsrc_name, hsrcT⟩ := spec.2.2.2.2
    have hfng : g.find_node (gradEdge g node).srcNode = some src := by
      apply find?_unique _ _ _ hsrc_mem
      · rw [decide_eq_true_eq]
        exact hsrc_name
      · intro y hy hpy
        simp only [decide_eq_true_eq] at hpy
        exact name_inj hnames hy hsrc_mem (by rw [hpy, hsrc_name])
    have hfn : (accOf ndev g done).find_node (gradEdge g node).srcNode =
        some src := by
      show ((g.nodes ++ _).find? _) = _
      exact find?_append_some _ _ _ _ hfng
    obtain ⟨tv, htv⟩ := Option.isSome_iff_exists.mp hsrcT
    rw [dp_step_apply_eq ndev _ node gi hopc (gradEdge g node) src tv hin hfn htv]
    have hfilter : (done ++ [node]).filter is_apply =
        done.filter is_apply ++ [node] := by
      simp [List.filter_append, happ]
    have hsrctv : srcTval g node = tv := by
      rw [srcTval, hfng]
      simp [htv]
    have hN : (accOf ndev g done).nodes ++
        [⟨(gradEdge g node).srcNode ++ "_allreduce", ScOp.allreduceOp,
          [("tensor_name", (gradEdge g node).srcNode ++ "_allreduce"),
           ("T", tv), ("reduction", "sum"),
           ("num_devices", toString ndev)]⟩] =
        (accOf ndev g (done ++ [node])).nodes := by
      simp only [accOf]
      rw [hfilter, List.map_append, List.append_assoc]
      simp only [List.map_cons, List.map_nil]
      congr 3
      rw [arNode, arAttrs, arName, hsrctv]
    have hEdge : ((accOf ndev g done).edges.erase (gradEdge g node) ++
        [⟨(gradEdge g node).srcNode, (gradEdge g node).srcIdx,
          (gradEdge g node).srcNode ++ "_allreduce", 0⟩]) ++
        [⟨(gradEdge g node).srcNode ++ "_allreduce", 0,
          (gradEdge g node).destNode, (gradEdge g node).destIdx⟩] =
        (accOf ndev g (done ++ [node])).edges := by
      simp only [accOf]
      rw [List.erase_append_left _ hE_in_erase]
      rw [hfilter, List.map_append, List.map_append, List.flatten_append]
      have h1 : eraseList g.edges
          ((done.filter is_apply).map (fun a => gradEdge g a) ++
            [node].map (fun a => gradEdge g a)) =
          (eraseList g.edges
            ((done.filter is_apply).map (fun a => gradEdge g a))).erase
              (gradEdge g node) := by
        rw [eraseList_append_eraseList]
        rfl
      rw [h1]
      simp only [List.map_cons, List.map_nil, List.flatten_cons,
        List.flatten_nil, List.append_nil]
      rw [addsOf, arName]
      rw [spec.2.2.1, spec.2.2.2.1, hgidx]
      simp [List.append_assoc]
    exact congrArg some (ScGraph.ext_nodes_edges hN hEdge)

/-- The accumulated graph for the empty prefix is the original graph. -/
theorem accOf_nil (ndev : Nat) (g : ScGraph) : accOf ndev g [] = g := by
  apply ScGraph.ext_nodes_edges
  · simp [accOf]
  · simp [accOf, eraseList]

/-- The rewrite loop, run over the remaining nodes from the accumulated
state of the processed prefix, succeeds and yields the accumulated
state of the whole list. -/
theorem dp_fold (ndev : Nat) {g : ScGraph} (hwf : dp_wf g) :
    ∀ (rest done : List ScNode), g.nodes = done ++ rest →
    List.foldlM (fun acc node => dp_step ndev acc node)
        (accOf ndev g done) rest =
      some (accOf ndev g (done ++ rest)) := by
  intro rest
  induction rest with
  | nil =>
    intro done h
    simp [List.foldlM]
  | cons node rest' ih =>
    intro done h
    have hstep := dp_step_eq ndev hwf done node rest' h
    have hih := ih (done ++ [node]) (by simp [h])
    rw [List.foldlM_cons, hstep]
    simp only [Option.bind_eq_bind, Option.some_bind]
    rw [hih, List.append_assoc]
    rfl

/-- C7: `DataParallelism.run_on_graph` returns True; every Apply node's
gradient in-edge is removed from the rewritten graph and replaced by a
freshly inserted all-reduce node (attrs: reduction "sum", num_devices =
len(devices)) interposed between the gradient's source and the Apply
node; and `parallel_graphs` afterwards holds exactly `len(devices)`
copies of the rewritten graph. -/
theorem data_parallelism_rewrite (D : List String) (g : ScGraph)
    (_hD : D ≠ []) (hwf : dp_wf g) :
    ∃ g', run_on_graph D g = some (true, g', List.replicate D.length g') ∧
      ∀ nd ∈ g.nodes, ∀ gi, nd.op = ScOp.applyOp gi →
        ∀ e, g.in_edge nd.name gi = some e →
          e ∉ g'.edges ∧
          arNode D.length g nd ∈ g'.nodes ∧
          (arNode D.length g nd).name = e.srcNode ++ "_allreduce" ∧
          (arNode D.length g nd).op = ScOp.allreduceOp ∧
          (arNode D.length g nd).attrs.lookup "reduction" = some "sum" ∧
          (arNode D.length g nd).attrs.lookup "num_devices" =
            some (toString D.length) ∧
          (⟨e.srcNode, e.srcIdx, e.srcNode ++ "_allreduce", 0⟩ : ScEdge) ∈
            g'.edges ∧
          (⟨e.srcNode ++ "_allreduce", 0, nd.name, gi⟩ : ScEdge) ∈
            g'.edges := by
  obtain ⟨hnames, hedges, hslot, happly, hfresh⟩ := id hwf
  refine ⟨accOf D.length g g.nodes, ?_, ?_⟩
  · unfold run_on_graph
    have hfold := dp_fold D.length hwf g.nodes [] rfl
    rw [accOf_nil] at hfold
    simp only [List.nil_append] at hfold
    rw [hfold]
  · intro nd hnd gi hop e hine
    have happ : is_apply nd = true := by simp [is_apply, hop]
    have hgidx : gradIdx nd = gi := by simp [gradIdx, hop]
    have spec := grad_edge_spec hwf hnd happ
    have hEe : e = gradEdge g nd := by
      have := spec.1
      rw [hgidx] at this
      rw [hine] at this
      exact (Option.some.injEq _ _ ▸ this)
    have hfmem : nd ∈ g.nodes.filter is_apply :=
      List.mem_filter.mpr ⟨hnd, happ⟩
    refine ⟨?_, ?_, ?_, ?_, ?_, ?_, ?_, ?_⟩
    · -- the gradient edge is gone
      intro hmem
      simp only [accOf] at hmem
      rcases List.mem_append.mp hmem with hL | hR
      · apply ((eraseList_mem _ _ _ hedges).mp hL).2
        rw [hEe]
        exact List.mem_map_of_mem (fun a => gradEdge g a) hfmem
      · rw [List.mem_flatten] at hR
        obtain ⟨l, hl, hyl⟩ := hR
        rw [List.mem_map] at hl
        obtain ⟨a, haf, rfl⟩ := hl
        have haf' := List.mem_filter.mp haf
        have specA := grad_edge_spec hwf haf'.1 haf'.2
        obtain ⟨srcA, hsrcA_mem, hsrcA_name, _⟩ := specA.2.2.2.2
        simp only [addsOf, List.mem_cons, List.not_mem_nil, or_false] at hyl
        rcases hyl with heq | heq
        · -- e equals the source→allreduce edge of some apply node
          apply hfresh nd hnd srcA hsrcA_mem
          have : e.destNode = arName g a := by rw [heq]
          rw [hEe] at this
          rw [spec.2.2.1] at this
          rw [this, arName, hsrcA_name]
        · -- e equals the allreduce→apply edge of some apply node
          have hdst : e.destNode = a.name := by rw [heq]
          rw [hEe, spec.2.2.1] at hdst
          have hna : nd = a := name_inj hnames hnd haf'.1 hdst
          subst hna
          have hsrc_eq : e.srcNode = arName g nd := by rw [heq]
          rw [hEe] at hsrc_eq
          rw [arName] at hsrc_eq
          exact ne_append_allreduce (gradEdge g nd).srcNode hsrc_eq
    · -- the allreduce node is present
      simp only [accOf]
      exact List.mem_append_right _
        (List.mem_map_of_mem (fun a => arNode D.length g a) hfmem)
    · rw [hEe]
      rfl
    · rfl
    · rfl
    · rfl
    · -- source → allreduce edge present
      simp only [accOf]
      apply List.mem_append_right
      rw [List.mem_flatten]
      refine ⟨addsOf g nd, List.mem_map_of_mem _ hfmem, ?_⟩
      rw [addsOf, arName, hEe]
      exact List.mem_cons_self _ _
    · -- allreduce → apply edge present
      simp only [accOf]
      apply List.mem_append_right
      rw [List.mem_flatten]
      refine ⟨addsOf g nd, List.mem_map_of_mem _ hfmem, ?_⟩
      rw [addsOf, arName, hEe, ← hgidx]
      exact List.mem_cons_of_mem _ (List.mem_cons_self _ _)

/-- A small training graph: a weight, a gradient, and one Apply node
whose input slot 1 is the gradient. -/
def dp_example_graph : ScGraph :=
  ⟨[⟨"w", ScOp.otherOp "var", [("T", "float32")]⟩,
    ⟨"grad", ScOp.otherOp "mul", [("T", "float32")]⟩,
    ⟨"ap", ScOp.applyOp 1, []⟩],
   [⟨"w", 0, "ap", 0⟩, ⟨"grad", 0, "ap", 1⟩]⟩

/-- C7 witness: the rewrite theorem applied to the concrete example
graph with two devices, hypotheses discharged by computation. -/
theorem data_parallelism_rewrite_witness :
    (["d0", "d1"] : List String) ≠ [] ∧ dp_wf dp_example_graph ∧
    (∃ g', run_on_graph ["d0", "d1"] dp_example_graph =
        some (true, g',
          List.replicate (["d0", "d1"] : List String).length g') ∧
      ∀ nd ∈ dp_example_graph.nodes, ∀ gi, nd.op = ScOp.applyOp gi →
        ∀ e, dp_example_graph.in_edge nd.name gi = some e →
          e ∉ g'.edges ∧
          arNode (["d0", "d1"] : List String).length dp_example_graph nd ∈
            g'.nodes ∧
          (arNode (["d0", "d1"] : List String).length dp_example_graph
            nd).name = e.srcNode ++ "_allreduce" ∧
          (arNode (["d0", "d1"] : List String).length dp_example_graph
            nd).op = ScOp.allreduceOp ∧
          (arNode (["d0", "d1"] : List String).length dp_example_graph
            nd).attrs.lookup "reduction" = some "sum" ∧
          (arNode (["d0", "d1"] : List String).length dp_example_graph
            nd).attrs.lookup "num_devices" =
            some (toString (["d0", "d1"] : List String).length) ∧
          (⟨e.srcNode, e.srcIdx, e.srcNode ++ "_allreduce", 0⟩ : ScEdge) ∈
            g'.edges ∧
          (⟨e.srcNode ++ "_allreduce", 0, nd.name, gi⟩ : ScEdge) ∈
            g'.edges) :=
  ⟨by decide, by decide,
    data_parallelism_rewrite ["d0", "d1"] dp_example_graph
      (by decide) (by decide)⟩

/-! ## scaler_graph: graph_util.py - reverse_DFS topological sort -/

/-- Modelled from the spec (the IR node class is missing from src): for
topological sorting a node is its identity plus the identities of its
in-edge source nodes (`get_upstream_nodes` reads only
`edge.src_node`). -/
structure DNode where
  nid : Nat
  preds : List Nat
deriving DecidableEq, Inhabited

/-- A graph, for graph_util.py purposes: its node list. -/
abbrev DGraph := List DNode

/-- graph_util.py `get_upstream_nodes(node)`: the source nodes of the
node's in-edges. -/
def get_upstream_nodes (g : DGraph) (n : Nat) : List Nat :=
  ((g.find? (fun nd => decide (nd.nid = n))).map (fun nd => nd.preds)).getD []

/-- graph_util.py `get_output_nodes(graph)`: the nodes of the graph that
are upstream of no node - the set difference of the node set and the
union of all upstream sets. -/
def get_output_nodes (g : DGraph) : List Nat :=
  (g.map (fun nd => nd.nid)).filter
    (fun i => decide (∀ nd ∈ g, i ∉ nd.preds))

/-- graph_util.py `visit`, processing a worklist of siblings: a node
already in `ordered_nodes` (`st.2`) is skipped; a node in `temp_nodes`
(`st.1`, the recursion stack) raises the cycle RuntimeError; otherwise
the node is pushed on the stack, its upstream nodes are visited one
nesting level deeper, then the node is popped and appended to
`ordered_nodes`.  The fuel counts nesting depth only (siblings share
it); Python has no fuel, and `reverse_DFS` supplies enough for fuel
exhaustion to be unreachable, as proved below for the acyclic case. -/
def visit (g : DGraph) (fuel : Nat) (work : List Nat)
    (st : List Nat × List Nat) : Except Unit (List Nat × List Nat) :=
  match work with
  | [] => Except.ok st
  | n :: ns =>
    if n ∈ st.2 then visit g fuel ns st
    else if n ∈ st.1 then Except.error ()
    else
      match fuel with
      | 0 => Except.error ()
      | fuel' + 1 =>
        match visit g fuel' (get_upstream_nodes g n) (n :: st.1, st.2) with
        | Except.error e => Except.error e
        | Except.ok st' =>
          visit g (fuel' + 1) ns (st'.1.erase n, st'.2 ++ [n])
termination_by (fuel, work.length)

/-- Depth budget for `reverse_DFS`: one more than the number of distinct
node ids. -/
def dfs_bound (g : DGraph) : Nat :=
  ((g.map (fun nd => nd.nid)).dedup).length + 1

/-- graph_util.py `reverse_DFS(graph)`: visit every output node with
empty `temp_nodes` and `ordered_nodes`, returning the ordered node
list, or the RuntimeError raised on a cycle. -/
def reverse_DFS (g : DGraph) : Except Unit (List Nat) :=
  match visit g (dfs_bound g) (get_output_nodes g) ([], []) with
  | Except.error e => Except.error e
  | Except.ok st => Except.ok st.2

/-- A node is reachable when it is an output node or upstream of a
reachable node (the nodes `reverse_DFS` explores). -/
inductive Reach (g : DGraph) : Nat → Prop where
  | out {n : Nat} : n ∈ get_output_nodes g → Reach g n
  | step {n u : Nat} : Reach g n → u ∈ get_upstream_nodes g n → Reach g u

/-- One upstream step: `b` is upstream of `a`. -/
def upsRel (g : DGraph) (a b : Nat) : Prop := b ∈ get_upstream_nodes g a

/-- No reachable node lies on an upstream cycle. -/
def Acyclic (g : DGraph) : Prop :=
  ∀ n, Reach g n → ¬ Relation.TransGen (upsRel g) n n

/-- Topological soundness of a reversed ordering: every element's
upstream nodes occur strictly later in the reversed list (strictly
earlier in the list itself). -/
def TopoRev (g : DGraph) : List Nat → Prop
  | [] => True
  | n :: l => (∀ u ∈ get_upstream_nodes g n, u ∈ l) ∧ TopoRev g l

/-- Topological soundness of an ordering. -/
def TopoOk (g : DGraph) (l : List Nat) : Prop := TopoRev g l.reverse

/-! ### Topological-order lemmas -/

theorem TopoRev_mid (g : DGraph) :
    ∀ (A : List Nat) (n : Nat) (B : List Nat),
      TopoRev g (A ++ n :: B) → ∀ u ∈ get_upstream_nodes g n, u ∈ B := by
  intro A
  induction A with
  | nil => intro n B h; exact h.1
  | cons a A ih => intro n B h; exact ih n B h.2

theorem TopoOk_mid (g : DGraph) (l1 : List Nat) (n : Nat) (l2 : List Nat)
    (h : TopoOk g (l1 ++ n :: l2)) :
    ∀ u ∈ get_upstream_nodes g n, u ∈ l1 := by
  intro u hu
  have h' : TopoRev g (l2.reverse ++ n :: l1.reverse) := by
    have h2 := h
    unfold TopoOk at h2
    rw [List.reverse_append, List.reverse_cons, List.append_assoc] at h2
    exact h2
  exact List.mem_reverse.mp (TopoRev_mid g l2.reverse n l1.reverse h' u hu)

theorem TopoOk_append_singleton (g : DGraph) (l : List Nat) (n : Nat)
    (h1 : ∀ u ∈ get_upstream_nodes g n, u ∈ l) (h2 : TopoOk g l) :
    TopoOk g (l ++ [n]) := by
  unfold TopoOk
  rw [List.reverse_append]
  simp only [List.reverse_cons, List.reverse_nil, List.nil_append,
    List.singleton_append]
  exact ⟨fun u hu => List.mem_reverse.mpr (h1 u hu), h2⟩

theorem TopoOk_closed (g : DGraph) (l : List Nat) (h : TopoOk g l) :
    ∀ n ∈ l, ∀ u ∈ get_upstream_nodes g n, u ∈ l := by
  intro n hn u hu
  obtain ⟨s, t, rfl⟩ := List.append_of_mem hn
  exact List.mem_append_left _ (TopoOk_mid g s n t h u hu)

theorem TopoOk_pos_lt (g : DGraph) (l : List Nat) (hT : TopoOk g l)
    (hN : l.Nodup) (a b : Nat) (ha : a ∈ l)
    (hb : b ∈ get_upstream_nodes g a) :
    b ∈ l ∧ l.indexOf b < l.indexOf a := by
  obtain ⟨s, t, rfl⟩ := List.append_of_mem ha
  have hbs : b ∈ s := TopoOk_mid g s a t hT b hb
  refine ⟨List.mem_append_left _ hbs, ?_⟩
  have hanotins : a ∉ s := by
    rw [List.nodup_append] at hN
    intro hmem
    exact hN.2.2 hmem (List.mem_cons_self a t)
  have hidxb : (s ++ a :: t).indexOf b = s.indexOf b :=
    List.indexOf_append_of_mem hbs
  have hidxa : (s ++ a :: t).indexOf a = s.length + (a :: t).indexOf a :=
    List.indexOf_append_of_not_mem hanotins
  rw [hidxb, hidxa]
  have : s.indexOf b < s.length := List.indexOf_lt_length.mpr hbs
  omega

theorem TransGen_pos_lt (g : DGraph) (l : List Nat) (hT : TopoOk g l)
    (hN : l.Nodup) (a b : Nat)
    (h : Relation.TransGen (upsRel g) a b) (ha : a ∈ l) :
    b ∈ l ∧ l.indexOf b < l.indexOf a := by
  induction h with
  | single hr => exact TopoOk_pos_lt g l hT hN _ _ ha hr
  | tail _ hr ih =>
    have hstep := TopoOk_pos_lt g l hT hN _ _ ih.1 hr
    exact ⟨hstep.1, lt_trans hstep.2 ih.2⟩

theorem no_cycle_in_topo (g : DGraph) (l : List Nat) (hT : TopoOk g l)
    (hN : l.Nodup) (n : Nat) (hn : n ∈ l)
    (hcyc : Relation.TransGen (upsRel g) n n) : False := by
  have := (TransGen_pos_lt g l hT hN n n hcyc hn).2
  omega

theorem reach_mem_of_closed (g : DGraph) (l : List Nat)
    (hout : ∀ n ∈ get_output_nodes g, n ∈ l)
    (hclosed : ∀ n ∈ l, ∀ u ∈ get_upstream_nodes g n, u ∈ l) :
    ∀ n, Reach g n → n ∈ l := by
  intro n hr
  induction hr with
  | out h => exact hout _ h
  | step _ hu ih => exact hclosed _ ih _ hu

theorem ups_sub_ids (g : DGraph)
    (hwfp : ∀ nd ∈ g, ∀ p ∈ nd.preds, p ∈ g.map (fun m => m.nid))
    (n : Nat) :
    ∀ u ∈ get_upstream_nodes g n, u ∈ (g.map (fun nd => nd.nid)).dedup := by
  intro u hu
  unfold get_upstream_nodes at hu
  cases hf : g.find? (fun nd => decide (nd.nid = n)) with
  | none => rw [hf] at hu; simp at hu
  | some nd =>
    rw [hf] at hu
    simp at hu
    have hnd := List.mem_of_find?_eq_some hf
    rw [List.mem_dedup]
    exact hwfp nd hnd u hu

theorem outputs_sub_ids (g : DGraph) :
    ∀ n ∈ get_output_nodes g, n ∈ (g.map (fun nd => nd.nid)).dedup := by
  intro n hn
  rw [List.mem_dedup]
  exact (List.mem_filter.mp hn).1

/-- Whenever `visit` succeeds, the stack is restored, the ordered list
grows by reachable nodes only, stays topologically sorted and
duplicate-free, avoids the stack, and contains every worklist node. -/
theorem visit_ok (g : DGraph) :
    ∀ (fuel : Nat) (work temp ordered : List Nat)
      (st' : List Nat × List Nat),
      visit g fuel work (temp, ordered) = Except.ok st' →
      TopoOk g ordered → ordered.Nodup → (∀ x ∈ ordered, x ∉ temp) →
      (∀ n ∈ work, Reach g n) →
      st'.1 = temp ∧ (∃ d, st'.2 = ordered ++ d ∧ (∀ x ∈ d, Reach g x)) ∧
        TopoOk g st'.2 ∧ st'.2.Nodup ∧ (∀ x ∈ st'.2, x ∉ temp) ∧
        (∀ n ∈ work, n ∈ st'.2) := by
  intro fuel
  induction fuel with
  | zero =>
    intro work
    induction work with
    | nil =>
      intro temp ordered st' h hT hN hD hR
      simp only [visit] at h
      rw [Except.ok.injEq] at h
      subst h
      exact ⟨rfl, ⟨[], by simp, by simp⟩, hT, hN, hD, by simp⟩
    | cons n ns ihw =>
      intro temp ordered st' h hT hN hD hR
      by_cases hmem : n ∈ ordered
      · rw [visit, if_pos hmem] at h
        have hrec := ihw temp ordered st' h hT hN hD
          (fun m hm => hR m (List.mem_cons_of_mem _ hm))
        refine ⟨hrec.1, hrec.2.1, hrec.2.2.1, hrec.2.2.2.1,
          hrec.2.2.2.2.1, ?_⟩
        intro m hm
        rcases List.mem_cons.mp hm with rfl | hm'
        · obtain ⟨d, hd, _⟩ := hrec.2.1
          rw [hd]
          exact List.mem_append_left _ hmem
        · exact hrec.2.2.2.2.2 m hm'
      · by_cases htemp : n ∈ temp
        · rw [visit, if_neg hmem, if_pos htemp] at h
          exact absurd h (by simp)
        · rw [visit, if_neg hmem, if_neg htemp] at h
          exact absurd h (by simp)
  | succ fuel' ihf =>
    intro work
    induction work with
    | nil =>
      intro temp ordered st' h hT hN hD hR
      simp only [visit] at h
      rw [Except.ok.injEq] at h
      subst h
      exact ⟨rfl, ⟨[], by simp, by simp⟩, hT, hN, hD, by simp⟩
    | cons n ns ihw =>
      intro temp ordered st' h hT hN hD hR
      by_cases hmem : n ∈ ordered
      · rw [visit, if_pos hmem] at h
        have hrec := ihw temp ordered st' h hT hN hD
          (fun m hm => hR m (List.mem_cons_of_mem _ hm))
        refine ⟨hrec.1, hrec.2.1, hrec.2.2.1, hrec.2.2.2.1,
          hrec.2.2.2.2.1, ?_⟩
        intro m hm
        rcases List.mem_cons.mp hm with rfl | hm'
        · obtain ⟨d, hd, _⟩ := hrec.2.1
          rw [hd]
          exact List.mem_append_left _ hmem
        · exact hrec.2.2.2.2.2 m hm'
      · by_cases htemp : n ∈ temp
        · rw [visit, if_neg hmem, if_pos htemp] at h
          exact absurd h (by simp)
        · rw [visit, if_neg hmem, if_neg htemp] at h
          have hRn : Reach g n := hR n (List.mem_cons_self _ _)
          cases hsub : visit g fuel' (get_upstream_nodes g n)
              (n :: temp, ordered) with
          | error e =>
            rw [hsub] at h
            exact absurd h (by simp)
          | ok st1 =>
            rw [hsub] at h
            have hD1 : ∀ x ∈ ordered, x ∉ n :: temp := by
              intro x hx
              rw [List.mem_cons]
              push_neg
              exact ⟨fun he => hmem (he ▸ hx), hD x hx⟩
            have hrec1 := ihf (get_upstream_nodes g n) (n :: temp)
              ordered st1 hsub hT hN hD1 (fun u hu => Reach.step hRn hu)
            obtain ⟨hst1a, ⟨d1, hd1, hd1R⟩, hT1, hN1, hD1w, hW1⟩ := hrec1
            have herase : st1.1.erase n = temp := by
              rw [hst1a]
              exact List.erase_cons_head _ _
            have hnnotin : n ∉ st1.2 := by
              intro hmm
              exact (hD1w n hmm) (List.mem_cons_self _ _)
            have hT2 : TopoOk g (st1.2 ++ [n]) :=
              TopoOk_append_singleton g st1.2 n hW1 hT1
            have hN2 : (st1.2 ++ [n]).Nodup := by
              rw [List.nodup_append]
              refine ⟨hN1, List.nodup_singleton n, ?_⟩
              intro x hx hxn
              rw [List.mem_singleton] at hxn
              subst hxn
              exact hnnotin hx
            have hD2 : ∀ x ∈ st1.2 ++ [n], x ∉ temp := by
              intro x hx
              rcases List.mem_append.mp hx with hx1 | hx2
              · intro hc
                exact hD1w x hx1 (List.mem_cons_of_mem _ hc)
              · rw [List.mem_singleton] at hx2
                subst hx2
                exact htemp
            have h2 : visit g (fuel' + 1) ns
                (st1.1.erase n, st1.2 ++ [n]) = Except.ok st' := h
            rw [herase] at h2
            have hrec2 := ihw temp (st1.2 ++ [n]) st' h2 hT2 hN2 hD2
              (fun m hm => hR m (List.mem_cons_of_mem _ hm))
            obtain ⟨hst'a, ⟨d2, hd2, hd2R⟩, hT', hN', hD', hW'⟩ := hrec2
            refine ⟨hst'a, ⟨d1 ++ n :: d2, ?_, ?_⟩, hT', hN', hD', ?_⟩
            · rw [hd2, hd1]
              simp [List.append_assoc]
            · intro x hx
              rcases List.mem_append.mp hx with hx1 | hx2
              · exact hd1R x hx1
              · rcases List.mem_cons.mp hx2 with rfl | hx3
                · exact hRn
                · exact hd2R x hx3
            · intro m hm
              rcases List.mem_cons.mp hm with rfl | hm'
              · rw [hd2]
                exact List.mem_append_left _
                  (List.mem_append_right _ (List.mem_singleton.mpr rfl))
              · exact hW' m hm'

/-- Pushing a fresh node on the stack shrinks the set of off-stack ids:
the filter equals an erase. -/
theorem filter_push_erase (temp : List Nat) (n : Nat) :
    ∀ l : List Nat, l.Nodup →
      l.filter (fun i => decide (i ∉ n :: temp)) =
        (l.filter (fun i => decide (i ∉ temp))).erase n := by
  intro l
  induction l with
  | nil => simp
  | cons a t ih =>
    intro hl
    obtain ⟨hat, htn⟩ := List.nodup_cons.mp hl
    have hcongr : t.filter (fun i => decide (i ∉ n :: temp)) =
        (t.filter (fun i => decide (i ∉ temp))).erase n := ih htn
    by_cases han : a = n
    · subst han
      have hLdrop : decide (a ∉ a :: temp) = false := by simp
      have hfa : t.filter (fun i => decide (i ∉ a :: temp)) =
          t.filter (fun i => decide (i ∉ temp)) := by
        apply List.filter_congr
        intro x hx
        have hxa : x ≠ a := fun hc => hat (hc ▸ hx)
        simp [List.mem_cons, hxa]
      by_cases hatemp : a ∈ temp
      · have hRdrop : decide (a ∉ temp) = false := by simp [hatemp]
        have hnotmem : a ∉ t.filter (fun i => decide (i ∉ temp)) := by
          intro hc
          exact hat (List.mem_filter.mp hc).1
        rw [List.filter_cons, hLdrop, List.filter_cons, hRdrop]
        show t.filter _ = (t.filter _).erase a
        rw [hfa, List.erase_of_not_mem hnotmem]
      · have hRkeep : decide (a ∉ temp) = true := by simp [hatemp]
        rw [List.filter_cons, hLdrop, List.filter_cons, hRkeep]
        show t.filter _ = (a :: t.filter _).erase a
        rw [List.erase_cons_head, hfa]
    · by_cases hatemp : a ∈ temp
      · have hLdrop : decide (a ∉ n :: temp) = false := by
          simp [List.mem_cons, hatemp]
        have hRdrop : decide (a ∉ temp) = false := by simp [hatemp]
        rw [List.filter_cons, hLdrop, List.filter_cons, hRdrop]
        show t.filter _ = (t.filter _).erase n
        exact hcongr
      · have hLkeep : decide (a ∉ n :: temp) = true := by
          simp [List.mem_cons, han, hatemp]
        have hRkeep : decide (a ∉ temp) = true := by simp [hatemp]
        rw [List.filter_cons, hLkeep, List.filter_cons, hRkeep]
        show a :: t.filter _ = (a :: t.filter _).erase n
        rw [List.erase_cons]
        rw [if_neg (by simp [han])]
        rw [hcongr]

theorem filter_stack_push_length (l : List Nat) (hl : l.Nodup) (n : Nat)
    (hn : n ∈ l) (temp : List Nat) (hnt : n ∉ temp) :
    (l.filter (fun i => decide (i ∉ n :: temp))).length <
      (l.filter (fun i => decide (i ∉ temp))).length := by
  rw [filter_push_erase temp n l hl]
  have hmem : n ∈ l.filter (fun i => decide (i ∉ temp)) := by
    rw [List.mem_filter]
    exact ⟨hn, by simp [hnt]⟩
  rw [List.length_erase_of_mem hmem]
  have hpos : 0 < (l.filter (fun i => decide (i ∉ temp))).length :=
    List.length_pos.mpr (List.ne_nil_of_mem hmem)
  omega

/-- On an acyclic (over its reachable part) well-formed graph, `visit`
succeeds given enough fuel: the stack is an upstream-chain to every
worklist node, so the cycle error cannot fire, and each push strictly
shrinks the off-stack id set, so the depth budget suffices. -/
theorem visit_acyclic_ok (g : DGraph)
    (hwfp : ∀ nd ∈ g, ∀ p ∈ nd.preds, p ∈ g.map (fun m => m.nid))
    (hacyc : Acyclic g) :
    ∀ (fuel : Nat) (work temp ordered : List Nat),
      (∀ n ∈ work, n ∈ (g.map (fun nd => nd.nid)).dedup) →
      temp.Nodup →
      (∀ t ∈ temp, ∀ n ∈ work, Relation.TransGen (upsRel g) t n) →
      (∀ n ∈ work, Reach g n) →
      TopoOk g ordered → ordered.Nodup → (∀ x ∈ ordered, x ∉ temp) →
      ((((g.map (fun nd => nd.nid)).dedup).filter
          (fun i => decide (i ∉ temp))).length < fuel) →
      ∃ st', visit g fuel work (temp, ordered) = Except.ok st' := by
  intro fuel
  induction fuel with
  | zero =>
    intro work temp ordered _ _ _ _ _ _ _ hfuel
    omega
  | succ fuel' ihf =>
    intro work
    induction work with
    | nil =>
      intro temp ordered _ _ _ _ _ _ _ _
      exact ⟨(temp, ordered), by rw [visit]⟩
    | cons n ns ihw =>
      intro temp ordered hids htN hchain hreach hT hN hD hfuel
      by_cases hmem : n ∈ ordered
      · obtain ⟨st', hst'⟩ := ihw temp ordered
          (fun m hm => hids m (List.mem_cons_of_mem _ hm)) htN
          (fun t ht m hm => hchain t ht m (List.mem_cons_of_mem _ hm))
          (fun m hm => hreach m (List.mem_cons_of_mem _ hm))
          hT hN hD hfuel
        refine ⟨st', ?_⟩
        rw [visit, if_pos hmem]
        exact hst'
      · have hRn : Reach g n := hreach n (List.mem_cons_self _ _)
        have htemp : n ∉ temp := by
          intro hc
          exact hacyc n hRn (hchain n hc n (List.mem_cons_self _ _))
        have hupids := ups_sub_ids g hwfp n
        have hchain' : ∀ t ∈ n :: temp, ∀ u ∈ get_upstream_nodes g n,
            Relation.TransGen (upsRel g) t u := by
          intro t ht u hu
          rcases List.mem_cons.mp ht with rfl | ht'
          · exact Relation.TransGen.single hu
          · exact Relation.TransGen.tail
              (hchain t ht' n (List.mem_cons_self _ _)) hu
        have hD1 : ∀ x ∈ ordered, x ∉ n :: temp := by
          intro x hx
          rw [List.mem_cons]
          push_neg
          exact ⟨fun he => hmem (he ▸ hx), hD x hx⟩
        have hfuel' : ((((g.map (fun nd => nd.nid)).dedup).filter
            (fun i => decide (i ∉ n :: temp))).length) < fuel' := by
          have hlt := filter_stack_push_length _ (List.nodup_dedup _) n
            (hids n (List.mem_cons_self _ _)) temp htemp
          omega
        have hRups : ∀ u ∈ get_upstream_nodes g n, Reach g u :=
          fun u hu => Reach.step hRn hu
        obtain ⟨st1, hok1⟩ := ihf (get_upstream_nodes g n) (n :: temp)
          ordered hupids (List.nodup_cons.mpr ⟨htemp, htN⟩) hchain'
          hRups hT hN hD1 hfuel'
        have hfacts := visit_ok g fuel' (get_upstream_nodes g n)
          (n :: temp) ordered st1 hok1 hT hN hD1 hRups
        obtain ⟨hst1a, ⟨d1, hd1, hd1R⟩, hT1, hN1, hD1w, hW1⟩ := hfacts
        have herase : st1.1.erase n = temp := by
          rw [hst1a]
          exact List.erase_cons_head _ _
        have hnnotin : n ∉ st1.2 := fun hmm =>
          (hD1w n hmm) (List.mem_cons_self _ _)
        have hT2 : TopoOk g (st1.2 ++ [n]) :=
          TopoOk_append_singleton g st1.2 n hW1 hT1
        have hN2 : (st1.2 ++ [n]).Nodup := by
          rw [List.nodup_append]
          refine ⟨hN1, List.nodup_singleton n, ?_⟩
          intro x hx hxn
          rw [List.mem_singleton] at hxn
          subst hxn
          exact hnnotin hx
        have hD2 : ∀ x ∈ st1.2 ++ [n], x ∉ temp := by
          intro x hx
          rcases List.mem_append.mp hx with hx1 | hx2
          · intro hc
            exact hD1w x hx1 (List.mem_cons_of_mem _ hc)
          · rw [List.mem_singleton] at hx2
            subst hx2
            exact htemp
        obtain ⟨st', hok2⟩ := ihw temp (st1.2 ++ [n])
          (fun m hm => hids m (List.mem_cons_of_mem _ hm)) htN
          (fun t ht m hm => hchain t ht m (List.mem_cons_of_mem _ hm))
          (fun m hm => hreach m (List.mem_cons_of_mem _ hm))
          hT2 hN2 hD2 hfuel
        refine ⟨st', ?_⟩
        rw [visit, if_neg hmem, if_neg htemp, hok1]
        show visit g (fuel' + 1) ns (st1.1.erase n, st1.2 ++ [n]) =
          Except.ok st'
        rw [herase]
        exact hok2

/-- C8: on a graph whose reachable part is acyclic, `reverse_DFS`
returns a duplicate-free topological ordering of exactly the reachable
nodes - every node appears strictly after all of its upstream nodes -
and when a reachable upstream cycle exists it raises RuntimeError
instead of returning. -/
theorem reverse_DFS_topological_sort (g : DGraph)
    (hwfp : ∀ nd ∈ g, ∀ p ∈ nd.preds, p ∈ g.map (fun m => m.nid)) :
    (Acyclic g →
      ∃ l, reverse_DFS g = Except.ok l ∧
        (∀ n, n ∈ l ↔ Reach g n) ∧ l.Nodup ∧
        (∀ l1 n l2, l = l1 ++ n :: l2 →
          ∀ u ∈ get_upstream_nodes g n, u ∈ l1)) ∧
    ((∃ n, Reach g n ∧ Relation.TransGen (upsRel g) n n) →
      reverse_DFS g = Except.error ()) := by
  constructor
  · intro hacyc
    have hout_reach : ∀ n ∈ get_output_nodes g, Reach g n :=
      fun n hn => Reach.out hn
    have hfuel0 : (((g.map (fun nd => nd.nid)).dedup).filter
        (fun i => decide (i ∉ ([] : List Nat)))).length < dfs_bound g := by
      unfold dfs_bound
      have hself : ((g.map (fun nd => nd.nid)).dedup).filter
          (fun i => decide (i ∉ ([] : List Nat))) =
          (g.map (fun nd => nd.nid)).dedup := by
        apply List.filter_eq_self.mpr
        intro a _
        simp
      rw [hself]
      omega
    obtain ⟨st', hok⟩ := visit_acyclic_ok g hwfp hacyc (dfs_bound g)
      (get_output_nodes g) [] [] (outputs_sub_ids g) List.nodup_nil
      (by intro t ht; simp at ht) hout_reach trivial List.nodup_nil
      (by intro x hx; simp at hx) hfuel0
    have hfacts := visit_ok g (dfs_bound g) (get_output_nodes g) [] [] st'
      hok trivial List.nodup_nil (by intro x hx; simp at hx) hout_reach
    obtain ⟨_, ⟨d, hd, hdR⟩, hT, hN, _, hW⟩ := hfacts
    refine ⟨st'.2, ?_, ?_, hN, ?_⟩
    · unfold reverse_DFS
      rw [hok]
    · intro n
      constructor
      · intro hn
        rw [hd] at hn
        rw [List.nil_append] at hn
        exact hdR n hn
      · exact reach_mem_of_closed g st'.2 hW (TopoOk_closed g st'.2 hT) n
    · intro l1 n l2 hsplit u hu
      exact TopoOk_mid g l1 n l2 (hsplit ▸ hT) u hu
  · intro hex
    obtain ⟨n, hrn, hcyc⟩ := hex
    unfold reverse_DFS
    cases hv : visit g (dfs_bound g) (get_output_nodes g) ([], []) with
    | error e => rfl
    | ok st' =>
      exfalso
      have hfacts := visit_ok g (dfs_bound g) (get_output_nodes g) [] [] st'
        hv trivial List.nodup_nil (by intro x hx; simp at hx)
        (fun m hm => Reach.out hm)
      obtain ⟨_, _, hT, hN, _, hW⟩ := hfacts
      have hmem : n ∈ st'.2 :=
        reach_mem_of_closed g st'.2 hW (TopoOk_closed g st'.2 hT) n hrn
      exact no_cycle_in_topo g st'.2 hT hN n hmem hcyc

/-- A concrete three-node chain 2 ← 1 ← 0 in which node 2 is the only
output node. -/
def dfs_example_graph : DGraph := [⟨0, []⟩, ⟨1, [0]⟩, ⟨2, [1]⟩]

/-- C8 witness: the topological-sort theorem applied to the concrete
chain graph, its well-formedness discharged by computation. -/
theorem reverse_DFS_topological_sort_witness :
    (Acyclic dfs_example_graph →
      ∃ l, reverse_DFS dfs_example_graph = Except.ok l ∧
        (∀ n, n ∈ l ↔ Reach dfs_example_graph n) ∧ l.Nodup ∧
        (∀ l1 n l2, l = l1 ++ n :: l2 →
          ∀ u ∈ get_upstream_nodes dfs_example_graph n, u ∈ l1)) ∧
    ((∃ n, Reach dfs_example_graph n ∧
        Relation.TransGen (upsRel dfs_example_graph) n n) →
      reverse_DFS dfs_example_graph = Except.error ()) :=
  reverse_DFS_topological_sort dfs_example_graph (by decide)

/-! ## scaler_graph: parallelizer.py -/

/-- An abstract parallelism, exposing exactly the interface
parallelizer.py uses: whether `run_on_graph` succeeds on a graph, and
the `parallel_graphs` the parallelism holds after its loop. -/
structure AbstractParallelism (PG : Type) where
  runOnGraph : PG → Bool
  parallelGraphs : List PG

/-- parallelizer.py `run_parallelisms`, as a state transformer on
`self.graphs`: for each registered parallelism in order, run it on every
graph of the current list; the first falsy `run_on_graph` raises
RuntimeError (`some ()`) with `graphs` left at its current value;
otherwise `graphs` is reassigned to the parallelism's
`parallel_graphs` and the next parallelism runs (`finalize` is a
no-op). -/
def run_parallelisms {PG : Type} :
    List (AbstractParallelism PG) → List PG → Option Unit × List PG
  | [], gs => (none, gs)
  | p :: ps, gs =>
    if gs.all p.runOnGraph then run_parallelisms ps p.parallelGraphs
    else (some (), gs)

/-- The graphs list before the i-th parallelism runs, assuming all
earlier parallelisms succeeded. -/
def graphs_after {PG : Type} (ps : List (AbstractParallelism PG))
    (gs : List PG) (i : Nat) : List PG :=
  (ps.take i).foldl (fun _ p => p.parallelGraphs) gs

/-- C9: `run_parallelisms` raises RuntimeError as soon as any
parallelism returns falsy on any graph of its current list, and on that
error `self.graphs` is left unchanged (still the list from before that
parallelism); `self.graphs` is reassigned to a parallelism's
`parallel_graphs` only after it succeeded on every graph of the current
list, and when all succeed no error is raised. -/
theorem run_parallelisms_frame {PG : Type}
    (ps : List (AbstractParallelism PG)) (gs : List PG) :
    ((∀ i (h : i < ps.length),
        (graphs_after ps gs i).all (ps.get ⟨i, h⟩).runOnGraph = true) →
      run_parallelisms ps gs = (none, graphs_after ps gs ps.length)) ∧
    (∀ i (h : i < ps.length),
      (∀ j (hj : j < i),
        (graphs_after ps gs j).all
          (ps.get ⟨j, lt_trans hj h⟩).runOnGraph = true) →
      (graphs_after ps gs i).all (ps.get ⟨i, h⟩).runOnGraph = false →
      run_parallelisms ps gs = (some (), graphs_after ps gs i)) := by
  induction ps generalizing gs with
  | nil =>
    constructor
    · intro _
      rfl
    · intro i h
      exact absurd h (by simp)
  | cons p ps ih =>
    have hshift : ∀ i, graphs_after (p :: ps) gs (i + 1) =
        graphs_after ps p.parallelGraphs i := by
      intro i
      rfl
    constructor
    · intro hall
      have h0 : gs.all p.runOnGraph = true :=
        hall 0 (by simp)
      show (if gs.all p.runOnGraph then _ else _) = _
      rw [if_pos h0]
      have := (ih p.parallelGraphs).1
      rw [this (fun i hi => by
        have := hall (i + 1) (by simpa using Nat.succ_lt_succ hi)
        rwa [hshift i] at this)]
      rfl
    · intro i h hprev hfail
      match i with
      | 0 =>
        have hfail' : gs.all p.runOnGraph = false := hfail
        show (if gs.all p.runOnGraph then _ else _) = _
        rw [if_neg (by simp [hfail'])]
        rfl
      | i + 1 =>
        have h0 : gs.all p.runOnGraph = true := by
          have := hprev 0 (Nat.succ_pos i)
          exact this
        show (if gs.all p.runOnGraph then _ else _) = _
        rw [if_pos h0]
        have hlen : i < ps.length := by
          simpa using Nat.lt_of_succ_lt_succ h
        have := (ih p.parallelGraphs).2 i hlen
          (fun j hj => by
            have := hprev (j + 1) (Nat.succ_lt_succ hj)
            rwa [hshift j] at this)
          (by rwa [hshift i] at hfail)
        rw [this, hshift i]

/-- C9 witness: the frame theorem applied to one failing and one
succeeding concrete parallelism list over `Nat`-labelled graphs. -/
theorem run_parallelisms_frame_witness :
    run_parallelisms
      [(⟨fun g => decide (g = 1), [5, 6]⟩ : AbstractParallelism Nat)]
      [1, 2] = (some (), [1, 2]) ∧
    run_parallelisms
      [(⟨fun g => decide (g < 3), [5, 6]⟩ : AbstractParallelism Nat)]
      [1, 2] = (none, [5, 6]) := by
  constructor
  · exact (run_parallelisms_frame
      [(⟨fun g => decide (g = 1), [5, 6]⟩ : AbstractParallelism Nat)]
      [1, 2]).2 0 (by decide) (fun j hj => absurd hj (by omega)) (by decide)
  · exact (run_parallelisms_frame
      [(⟨fun g => decide (g < 3), [5, 6]⟩ : AbstractParallelism Nat)]
      [1, 2]).1 (fun i h => by
        match i with
        | 0 =>
          exact (by decide :
            (([1, 2] : List Nat).all (fun g => decide (g < 3))) = true)
        | k + 1 => exact absurd h (by simp))

/-! ## tensorflow.py: TFRecordDataset wrapper -/

/-- Python exceptions the wrapper can raise. -/
inductive PyError where
  | nameError
  | assertionError
deriving DecidableEq

/-- tensorflow.py `TFRecordDataset`: when "filenames" is passed as a
keyword, the filenames are rewritten in `kwargs`, but the variable
`args_copy` is bound only in the positional (else) branch; the final
call `tf.data.TFRecordDataset(*args_copy, **kwargs)` reads it in both
branches, so the keyword branch raises NameError.  The local binding of
`args_copy` is modelled as an Option read at the call site; the result
models the (args, kwargs) the wrapped constructor would receive. -/
def TFRecordDataset (args : List String)
    (kwargs : List (String × List String)) :
    Except PyError (List String × List (String × List String)) :=
  if (kwargs.lookup "filenames").isSome then
    let kwargs2 := kwargs.map (fun kv =>
      if kv.1 = "filenames" then
        (kv.1, (List.range kv.2.length).map
          (fun i => "DATASET_PATH:" ++ toString i))
      else kv)
    let args_copy : Option (List String) := none
    match args_copy, kwargs2 with
    | none, _ => Except.error PyError.nameError
    | some a, k2 => Except.ok (a, k2)
  else
    if args = [] then Except.error PyError.assertionError
    else
      let args_copy : Option (List String) :=
        some ("DATASET_PATH:0" :: args.tail)
      match args_copy with
      | none => Except.error PyError.nameError
      | some a => Except.ok (a, kwargs)

/-- C10: passing the dataset filenames through the keyword argument
"filenames" always raises NameError, for every argument combination,
because `args_copy` is bound only in the positional branch; only the
positional form (with a non-empty argument tuple) can succeed. -/
theorem TFRecordDataset_kwargs_raises (args : List String)
    (kwargs : List (String × List String))
    (h : (kwargs.lookup "filenames").isSome = true) :
    TFRecordDataset args kwargs = Except.error PyError.nameError ∧
    (∀ (args2 : List String) (kwargs2 : List (String × List String))
        (res : List String × List (String × List String)),
      TFRecordDataset args2 kwargs2 = Except.ok res →
        (kwargs2.lookup "filenames").isSome = false ∧ args2 ≠ []) := by
  constructor
  · unfold TFRecordDataset
    rw [if_pos h]
  · intro args2 kwargs2 res hok
    unfold TFRecordDataset at hok
    by_cases hkw : (kwargs2.lookup "filenames").isSome = true
    · rw [if_pos hkw] at hok
      exact absurd hok (by simp)
    · rw [if_neg hkw] at hok
      by_cases hargs : args2 = []
      · rw [if_pos hargs] at hok
        exact absurd hok (by simp)
      · exact ⟨Bool.eq_false_iff.mpr hkw, hargs⟩

/-- C10 witness: the NameError theorem applied at a concrete keyword
call. -/
theorem TFRecordDataset_kwargs_raises_witness :
    TFRecordDataset []
      [("filenames", ["train.tfrecord", "test.tfrecord"])] =
      Except.error PyError.nameError ∧
    (∀ (args2 : List String) (kwargs2 : List (String × List String))
        (res : List String × List (String × List String)),
      TFRecordDataset args2 kwargs2 = Except.ok res →
        (kwargs2.lookup "filenames").isSome = false ∧ args2 ≠ []) :=
  TFRecordDataset_kwargs_raises []
    [("filenames", ["train.tfrecord", "test.tfrecord"])] (by decide)

end SuperScaler
